import Mathlib

/-!
Verification of the corroza synthesizer core (envelope generator, FM
oscillator, voice manager, scheduler) against its specification.

Amplitudes and envelope values are modelled as rationals (the envelope code
uses only field arithmetic and comparisons); oscillator phases and mixed
audio samples are modelled as reals since they flow through sin, tanh and
real powers.  Machine-word sizes never matter for the properties below
except for the usize MAX sentinel of the scheduler, which is kept explicit.
-/

namespace Corroza

/-- State returned by every signal generator (generator/mod.rs). -/
inductive GenState where
  | Running
  | Complete
deriving DecidableEq

/-- Envelope phase (generator/adsr.rs, enum AdsrPhase). -/
inductive AdsrPhase where
  | Attack
  | Decay
  | Sustain
  | Release
  | Complete
deriving DecidableEq

/-- Envelope generator state (generator/adsr.rs, struct AdsrGenerator). -/
structure AdsrGenerator where
  initial_amplitude : ℚ
  attack_duration : ℕ
  decay_duration : ℕ
  sustain_level : ℚ
  sustain_max_duration : ℕ
  release_duration : ℕ
  phase : AdsrPhase
  position : ℕ
  sustain_position : ℕ
  current_amplitude : ℚ
  release_start_amplitude : ℚ
  pending_note_off : Bool
deriving DecidableEq

/-- Rust clamp(0.0, 1.0) on an amplitude: the value, floored at 0 and
capped at 1 (kept as explicit conditionals so the kernel can evaluate). -/
def clamp01 (x : ℚ) : ℚ := if x < 0 then 0 else if 1 < x then 1 else x

/-- AdsrGenerator::new - all inputs clamped / floored at construction. -/
def AdsrGenerator.new (initial_amplitude : ℚ) (attack_samples decay_samples : ℕ)
    (sustain_level : ℚ) (sustain_max_samples release_samples : ℕ) : AdsrGenerator where
  initial_amplitude := clamp01 initial_amplitude
  attack_duration := attack_samples.max 1
  decay_duration := decay_samples.max 1
  sustain_level := clamp01 sustain_level
  sustain_max_duration := sustain_max_samples.max 1
  release_duration := release_samples.max 1
  phase := .Attack
  position := 0
  sustain_position := 0
  current_amplitude := clamp01 initial_amplitude
  release_start_amplitude := 0
  pending_note_off := false

/-- AdsrGenerator::note_off - queue a note off event. -/
def AdsrGenerator.note_off (s : AdsrGenerator) : AdsrGenerator :=
  { s with pending_note_off := true }

/-- AdsrGenerator::process_events - pending events and the sustain-timeout
check are applied at the frame boundary. -/
def AdsrGenerator.process_events (s : AdsrGenerator) : AdsrGenerator :=
  let s1 :=
    if s.pending_note_off then
      match s.phase with
      | .Attack | .Decay | .Sustain =>
        { s with pending_note_off := false, phase := .Release,
                 release_start_amplitude := s.current_amplitude, position := 0 }
      | .Release => { s with pending_note_off := false }
      | .Complete => { s with pending_note_off := false }
    else s
  if s1.phase = .Sustain ∧ s1.sustain_max_duration ≤ s1.sustain_position then
    { s1 with phase := .Release,
              release_start_amplitude := s1.current_amplitude, position := 0 }
  else s1

/-- The linear ramp sample written at position pos of a phase of length
total: start + (end - start) * (pos / max(total-1, 1)). -/
def rampVal (start_amp end_amp : ℚ) (total pos : ℕ) : ℚ :=
  start_amp + (end_amp - start_amp) * ((pos : ℚ) / (((total - 1).max 1 : ℕ) : ℚ))

/-- AdsrGenerator::process_sustain - hold at the sustain level; the
timeout is only noted, the transition happens at the next frame boundary. -/
def AdsrGenerator.process_sustain (s : AdsrGenerator) (n : ℕ) :
    List ℚ × AdsrGenerator × GenState :=
  (List.replicate n s.sustain_level,
   { s with current_amplitude := s.sustain_level,
            sustain_position := s.sustain_position + n },
   .Running)

/-- Loop body of AdsrGenerator::process_release; pos is the global sample
position of the next sample, cur the last written amplitude, the third
argument counts the samples still to write into the buffer. -/
def releaseGo (s : AdsrGenerator) (pos : ℕ) (cur : ℚ) :
    ℕ → List ℚ × AdsrGenerator × GenState
  | 0 =>
    if s.release_duration ≤ pos then
      ([], { s with current_amplitude := cur, position := pos, phase := .Complete },
       .Complete)
    else ([], { s with current_amplitude := cur, position := pos }, .Running)
  | k + 1 =>
    if pos < s.release_duration then
      ((rampVal s.release_start_amplitude 0 s.release_duration pos) ::
        (releaseGo s (pos + 1)
          (rampVal s.release_start_amplitude 0 s.release_duration pos) k).1,
       (releaseGo s (pos + 1)
          (rampVal s.release_start_amplitude 0 s.release_duration pos) k).2)
    else
      (List.replicate (k + 1) 0,
       { s with phase := .Complete, current_amplitude := 0 }, .Complete)

/-- AdsrGenerator::process_release. -/
def AdsrGenerator.process_release (s : AdsrGenerator) (n : ℕ) :
    List ℚ × AdsrGenerator × GenState :=
  releaseGo s s.position s.current_amplitude n

/-- Loop body of AdsrGenerator::process_decay; on phase end mid-buffer the
rest of the same buffer is rendered as Sustain. -/
def decayGo (s : AdsrGenerator) (pos : ℕ) (cur : ℚ) :
    ℕ → List ℚ × AdsrGenerator × GenState
  | 0 =>
    if s.decay_duration ≤ pos then
      ([],
       { s with current_amplitude := cur, phase := .Sustain, position := 0, sustain_position := 0 },
       .Running)
    else ([], { s with current_amplitude := cur, position := pos }, .Running)
  | k + 1 =>
    if pos < s.decay_duration then
      ((rampVal 1 s.sustain_level s.decay_duration pos) ::
        (decayGo s (pos + 1) (rampVal 1 s.sustain_level s.decay_duration pos) k).1,
       (decayGo s (pos + 1) (rampVal 1 s.sustain_level s.decay_duration pos) k).2)
    else
      -- the Rust code returns Running here, which is also what
      -- process_sustain always returns
      AdsrGenerator.process_sustain
        { s with current_amplitude := cur, phase := .Sustain, position := 0, sustain_position := 0 }
        (k + 1)

/-- AdsrGenerator::process_decay. -/
def AdsrGenerator.process_decay (s : AdsrGenerator) (n : ℕ) :
    List ℚ × AdsrGenerator × GenState :=
  decayGo s s.position s.current_amplitude n

/-- Loop body of AdsrGenerator::process_attack; on phase end mid-buffer the
rest of the same buffer is rendered as Decay. -/
def attackGo (s : AdsrGenerator) (pos : ℕ) (cur : ℚ) :
    ℕ → List ℚ × AdsrGenerator × GenState
  | 0 =>
    if s.attack_duration ≤ pos then
      ([], { s with current_amplitude := cur, phase := .Decay, position := 0 },
       .Running)
    else ([], { s with current_amplitude := cur, position := pos }, .Running)
  | k + 1 =>
    if pos < s.attack_duration then
      ((rampVal s.initial_amplitude 1 s.attack_duration pos) ::
        (attackGo s (pos + 1) (rampVal s.initial_amplitude 1 s.attack_duration pos) k).1,
       (attackGo s (pos + 1) (rampVal s.initial_amplitude 1 s.attack_duration pos) k).2)
    else
      -- the Rust code returns Running here, which is also what
      -- process_decay always returns
      AdsrGenerator.process_decay
        { s with current_amplitude := cur, phase := .Decay, position := 0 } (k + 1)

/-- AdsrGenerator::process_attack. -/
def AdsrGenerator.process_attack (s : AdsrGenerator) (n : ℕ) :
    List ℚ × AdsrGenerator × GenState :=
  attackGo s s.position s.current_amplitude n

/-- SignalGenerator::process for AdsrGenerator: apply pending events at the
frame boundary, then render the buffer in the current phase. -/
def AdsrGenerator.process (s : AdsrGenerator) (n : ℕ) :
    List ℚ × AdsrGenerator × GenState :=
  let s1 := s.process_events
  match s1.phase with
  | .Attack => s1.process_attack n
  | .Decay => s1.process_decay n
  | .Sustain => s1.process_sustain n
  | .Release => s1.process_release n
  | .Complete =>
    (List.replicate n 0, { s1 with current_amplitude := 0 }, .Complete)

/-- AdsrGenerator::is_complete. -/
def AdsrGenerator.is_complete (s : AdsrGenerator) : Bool :=
  s.phase == .Complete

/-! ## FM oscillator (generator/fm_synth.rs) -/

/-- FM synthesis parameters (struct FmSynthParams). -/
structure FmSynthParams where
  harmonics : List ℕ
  amps : List ℝ
  phase_per_sample : ℝ
  mod_depth : ℝ

/-- The constructor assertions of FmSynthParams::new. -/
def FmSynthParams.valid (p : FmSynthParams) : Prop :=
  p.harmonics.length = p.amps.length ∧
  0 < p.phase_per_sample ∧ p.phase_per_sample < Real.pi ∧ 0 ≤ p.mod_depth

/-- FM generator state (struct FmSynthGenerator). -/
structure FmSynthGenerator where
  params : FmSynthParams
  mod_env : AdsrGenerator
  wav_env : AdsrGenerator
  phase : ℝ
  sample_count : ℕ

/-- FmSynthGenerator::new (the envelope-length warning has no effect on
state and is not modelled). -/
def FmSynthGenerator.new (params : FmSynthParams)
    (mod_env wav_env : AdsrGenerator) : FmSynthGenerator where
  params := params
  mod_env := mod_env
  wav_env := wav_env
  phase := 0
  sample_count := 0

/-- Truncation toward zero, the rounding used by the Rust float remainder. -/
noncomputable def rustTrunc (x : ℝ) : ℤ :=
  if 0 ≤ x then ⌊x⌋ else -⌊-x⌋

/-- The Rust % operator on floats: remainder with the sign of the dividend,
x - y * trunc(x / y). -/
noncomputable def rustRem (x y : ℝ) : ℝ :=
  x - y * (rustTrunc (x / y) : ℝ)

/-- FmSynthGenerator::compute_modulation:
m[n] = sum of amps[i] * sin(harmonics[i] * phase_per_sample * n). -/
noncomputable def compute_modulation (p : FmSynthParams) (sample_count : ℕ) : ℝ :=
  (p.harmonics.zip p.amps).foldl
    (fun acc hw =>
      acc + hw.2 * Real.sin ((hw.1 : ℝ) * p.phase_per_sample * (sample_count : ℝ)))
    0

/-- Per-sample loop of FmSynthGenerator::process, consuming the per-sample
envelope sub-buffers: instantaneous frequency, phase accumulation with the
Rust % wrap, output sin(phase) * wav envelope. -/
noncomputable def fmGo (p : FmSynthParams) :
    ℝ → ℕ → List ℚ → List ℚ → List ℝ × ℝ × ℕ
  | phase, cnt, me :: ms, we :: ws =>
    let modulation := compute_modulation p cnt
    let inst_freq := p.phase_per_sample * (1 + modulation * p.mod_depth * (me : ℝ))
    let ph := rustRem (phase + 2 * Real.pi * inst_freq) (2 * Real.pi)
    let out := Real.sin ph * (we : ℝ)
    let r := fmGo p ph (cnt + 1) ms ws
    (out :: r.1, r.2)
  | phase, cnt, _, _ => ([], phase, cnt)

/-- SignalGenerator::process for FmSynthGenerator: both envelopes advance
once per buffer, the per-sample loop consumes their sub-buffers; Complete
only once both envelopes are Complete. -/
noncomputable def FmSynthGenerator.process (s : FmSynthGenerator) (n : ℕ) :
    List ℝ × FmSynthGenerator × GenState :=
  let mr := s.mod_env.process n
  let wr := s.wav_env.process n
  let r := fmGo s.params s.phase s.sample_count mr.1 wr.1
  (r.1,
   { s with mod_env := mr.2.1, wav_env := wr.2.1,
            phase := r.2.1, sample_count := r.2.2 },
   if mr.2.2 = .Complete ∧ wr.2.2 = .Complete then .Complete else .Running)

/-- FmSynthGenerator::note_off forwards release to both envelopes. -/
def FmSynthGenerator.note_off (s : FmSynthGenerator) : FmSynthGenerator :=
  { s with mod_env := s.mod_env.note_off, wav_env := s.wav_env.note_off }

/-- FmSynthGenerator::is_complete. -/
def FmSynthGenerator.is_complete (s : FmSynthGenerator) : Bool :=
  s.mod_env.is_complete && s.wav_env.is_complete

/-! ## Voice manager (pipeline/voicemgr.rs) and note model (pipeline/parser.rs) -/

/-- Pitch classes (pipeline/parser.rs, enum PitchClass). -/
inductive PitchClass where
  | C | CSharp | D | DSharp | E | F | FSharp | G | GSharp | A | ASharp | B
deriving DecidableEq

/-- PitchClass::semitone - semitone number, C = 0 through B = 11. -/
def PitchClass.semitone : PitchClass → ℕ
  | .C => 0
  | .CSharp => 1
  | .D => 2
  | .DSharp => 3
  | .E => 4
  | .F => 5
  | .FSharp => 6
  | .G => 7
  | .GSharp => 8
  | .A => 9
  | .ASharp => 10
  | .B => 11

/-- A musical note (pipeline/parser.rs, struct Note). -/
structure Note where
  octave : ℕ
  pitch_class : PitchClass
deriving DecidableEq

/-- Key event direction (pipeline/parser.rs, enum KeyDirection). -/
inductive KeyDirection where
  | Down
  | Up
deriving DecidableEq

/-- Shared voice configuration (pipeline/voicemgr.rs, struct VoiceConfig). -/
structure VoiceConfig where
  fm_params : FmSynthParams
  attack_samples : ℕ
  decay_samples : ℕ
  sustain_level : ℚ
  release_samples : ℕ

/-- An active voice (pipeline/voicemgr.rs, struct Voice). -/
structure Voice where
  note : Note
  synth : FmSynthGenerator
  is_releasing : Bool

/-- Polyphonic voice manager (pipeline/voicemgr.rs, struct VoiceManager). -/
structure VoiceManager where
  config : VoiceConfig
  active_voices : List Voice
  base_frequency : ℝ
  sample_rate : ℕ

/-- VoiceManager::note_frequency:
f = base_freq * 2 ^ ((octave - 1) + semitone / 12). -/
noncomputable def VoiceManager.note_frequency (m : VoiceManager) (note : Note) : ℝ :=
  let octave_offset := ((note.octave : ℝ) - 1) * 12
  let semitone_offset := (note.pitch_class.semitone : ℝ)
  let total_semitones := octave_offset + semitone_offset
  m.base_frequency * (2 : ℝ) ^ (total_semitones / 12)

/-- VoiceManager::phase_per_sample: 2 * pi * f / sample_rate. -/
noncomputable def VoiceManager.phase_per_sample (m : VoiceManager)
    (frequency : ℝ) : ℝ :=
  2 * Real.pi * frequency / (m.sample_rate : ℝ)

/-- VoiceManager::create_synth - per-note FM params plus two fresh
envelopes with a one-hour maximum sustain. -/
noncomputable def VoiceManager.create_synth (m : VoiceManager)
    (note : Note) : FmSynthGenerator :=
  let frequency := m.note_frequency note
  let pps := m.phase_per_sample frequency
  let fm_params := { m.config.fm_params with phase_per_sample := pps }
  let max_sustain := m.sample_rate * 60 * 60
  let mod_env := AdsrGenerator.new 0 m.config.attack_samples m.config.decay_samples
      m.config.sustain_level max_sustain m.config.release_samples
  let wav_env := AdsrGenerator.new 0 m.config.attack_samples m.config.decay_samples
      m.config.sustain_level max_sustain m.config.release_samples
  FmSynthGenerator.new fm_params mod_env wav_env

/-- The in-place mutation of iter_mut().find(..) in the Up branch of
VoiceManager::handle_event: release the first non-releasing voice for the
note, leave everything else untouched. -/
def releaseFirst : List Voice → Note → List Voice
  | [], _ => []
  | v :: vs, note =>
    if v.note == note && !v.is_releasing then
      { v with synth := v.synth.note_off, is_releasing := true } :: vs
    else v :: releaseFirst vs note

/-- VoiceManager::handle_event. -/
noncomputable def VoiceManager.handle_event (m : VoiceManager) (note : Note)
    (direction : KeyDirection) : VoiceManager :=
  match direction with
  | .Down =>
    if m.active_voices.any (fun v => v.note == note && !v.is_releasing) then m
    else
      { m with active_voices := m.active_voices ++
          [{ note := note, synth := m.create_synth note, is_releasing := false }] }
  | .Up =>
    { m with active_voices := releaseFirst m.active_voices note }

/-- Rust f32::signum restricted to the values soft_clip feeds it. -/
noncomputable def signum (x : ℝ) : ℝ := if 0 ≤ x then 1 else -1

/-- soft_clip (pipeline/voicemgr.rs): identity inside [-1, 1], else
signum(x) * (1 + tanh(|x| - 1) * 0.5). -/
noncomputable def soft_clip (x : ℝ) : ℝ :=
  if |x| ≤ 1 then x else signum x * (1 + Real.tanh (|x| - 1) * 0.5)

/-- VoiceManager::process_frame: zero buffer and early return when no
voices; otherwise render every voice, accumulate, drop the voices whose
generator reported Complete (collected during the scan and removed after
it, which keeps exactly the Running voices in order), then soft-clip. -/
noncomputable def VoiceManager.process_frame (m : VoiceManager) (n : ℕ) :
    List ℝ × VoiceManager :=
  if m.active_voices.isEmpty then (List.replicate n 0, m)
  else
    let results := m.active_voices.map (fun v =>
      let r := v.synth.process n
      ({ v with synth := r.2.1 }, r.1, r.2.2))
    let mixed := results.foldl (fun acc vr => List.zipWith (· + ·) acc vr.2.1)
      (List.replicate n 0)
    let kept := results.filterMap (fun vr =>
      if vr.2.2 = GenState.Complete then none else some vr.1)
    (mixed.map soft_clip, { m with active_voices := kept })

/-- VoiceManager::has_active_voices. -/
def VoiceManager.has_active_voices (m : VoiceManager) : Bool :=
  !m.active_voices.isEmpty

/-- VoiceManager::voice_count. -/
def VoiceManager.voice_count (m : VoiceManager) : ℕ :=
  m.active_voices.length

/-! ## Scheduler / pipeline (pipeline/scheduler.rs) -/

/-- A single parsed event (pipeline/parser.rs, struct Event). -/
structure Event where
  note : Note
  direction : KeyDirection

/-- One timeline line (pipeline/parser.rs, struct TimedEvents). -/
structure TimedEvents where
  delta : ℕ
  events : List Event

/-- Pipeline configuration (pipeline/scheduler.rs, struct PipelineConfig). -/
structure PipelineConfig where
  sample_rate : ℕ
  frame_size : ℕ
  timestep_samples : ℕ
  voice_config : VoiceConfig
  base_frequency : ℝ

/-- The usize::MAX sentinel stored when the timeline is exhausted. -/
def USIZE_MAX : ℕ := 2 ^ 64 - 1

/-- Pipeline state (pipeline/scheduler.rs, struct Pipeline). -/
structure Pipeline where
  config : PipelineConfig
  voice_manager : VoiceManager
  events : List TimedEvents
  current_sample : ℕ
  event_index : ℕ
  samples_to_next_event : ℕ
  has_more_events : Bool

/-- Pipeline::new. -/
def Pipeline.new (config : PipelineConfig) (events : List TimedEvents) : Pipeline :=
  let vm : VoiceManager :=
    { config := config.voice_config, active_voices := [],
      base_frequency := config.base_frequency, sample_rate := config.sample_rate }
  let stne := match events with
    | [] => 0
    | e :: _ => e.delta * config.timestep_samples
  { config := config, voice_manager := vm, events := events,
    current_sample := 0, event_index := 0, samples_to_next_event := stne,
    has_more_events := !events.isEmpty }

/-- Pipeline::is_active. -/
def Pipeline.is_active (p : Pipeline) : Bool :=
  p.has_more_events || p.voice_manager.has_active_voices

/-- The while loop of Pipeline::process_events; the fuel argument is the
number of timeline entries not yet dispatched, which bounds its trips. -/
noncomputable def pipeEventsGo (timestep : ℕ) (events : List TimedEvents) :
    ℕ → VoiceManager → ℕ → ℕ → Bool → VoiceManager × ℕ × ℕ × Bool
  | 0, vm, idx, stne, hasMore => (vm, idx, stne, hasMore)
  | fuel + 1, vm, idx, stne, hasMore =>
    if hasMore && stne == 0 then
      let timed := events.getD idx ⟨0, []⟩
      let vm1 := timed.events.foldl
        (fun acc e => acc.handle_event e.note e.direction) vm
      let idx1 := idx + 1
      if events.length ≤ idx1 then (vm1, idx1, USIZE_MAX, false)
      else
        pipeEventsGo timestep events fuel vm1 idx1
          ((events.getD idx1 ⟨0, []⟩).delta * timestep) true
    else (vm, idx, stne, hasMore)

/-- Pipeline::process_events. -/
noncomputable def Pipeline.process_events (p : Pipeline) : Pipeline :=
  let r := pipeEventsGo p.config.timestep_samples p.events
    (p.events.length - p.event_index) p.voice_manager p.event_index
    p.samples_to_next_event p.has_more_events
  { p with voice_manager := r.1, event_index := r.2.1,
           samples_to_next_event := r.2.2.1, has_more_events := r.2.2.2 }

/-- Pipeline::advance_time (saturating countdown decrement). -/
def Pipeline.advance_time (p : Pipeline) (samples : ℕ) : Pipeline :=
  let p1 := { p with current_sample := p.current_sample + samples }
  if p1.has_more_events && 0 < p1.samples_to_next_event then
    { p1 with samples_to_next_event := p1.samples_to_next_event - samples }
  else p1

/-- Pipeline::process_frame: dispatch due events, render, advance time. -/
noncomputable def Pipeline.process_frame (p : Pipeline) (n : ℕ) : List ℝ × Pipeline :=
  let p1 := p.process_events
  let r := p1.voice_manager.process_frame n
  let p2 := { p1 with voice_manager := r.2 }
  (r.1, p2.advance_time n)

/-- The main accumulation loop of Pipeline::generate_wav: process frames
while active, guarded by the safety counter (modelled as remaining fuel);
returns the number of frames rendered and the final state. -/
noncomputable def renderGo : ℕ → Pipeline → ℕ → ℕ × Pipeline
  | 0, p, count => (count, p)
  | fuel + 1, p, count =>
    if p.is_active then
      let r := p.process_frame p.config.frame_size
      renderGo fuel r.2 (count + 1)
    else (count, p)

/-- The trailing-silence loop of Pipeline::generate_wav (at most 10 frames,
stopping early once no voice is active). -/
noncomputable def trailingGo : ℕ → Pipeline → ℕ → ℕ × Pipeline
  | 0, p, count => (count, p)
  | fuel + 1, p, count =>
    if p.voice_manager.has_active_voices then
      let r := p.process_frame p.config.frame_size
      trailingGo fuel r.2 (count + 1)
    else (count, p)

/-- max_samples of Pipeline::generate_wav: total timeline span plus twice
the release duration. -/
def Pipeline.max_render_samples (p : Pipeline) : ℕ :=
  (p.events.foldl (fun acc e => acc + e.delta) 0) * p.config.timestep_samples
    + p.config.voice_config.release_samples * 2

/-- max_iterations of Pipeline::generate_wav, the hard iteration cap. -/
def Pipeline.max_render_iterations (p : Pipeline) : ℕ :=
  p.max_render_samples / p.config.frame_size + 1000

/-- Number of frames Pipeline::generate_wav renders (main loop plus
trailing flush); the WAV serialization itself is out of scope. -/
noncomputable def Pipeline.generate_wav_frames (p : Pipeline) : ℕ :=
  let r := renderGo p.max_render_iterations p 0
  let t := trailingGo 10 r.2 0
  r.1 + t.1

/-! ## Envelope amplitude invariant -/

/-- Every sample of a buffer lies in the unit interval. -/
def unitBuf (l : List ℚ) : Prop := ∀ x ∈ l, 0 ≤ x ∧ x ≤ 1

/-- The amplitude invariant of an envelope: the four amplitude-valued
fields all lie in the unit interval. -/
def AdsrInv (s : AdsrGenerator) : Prop :=
  0 ≤ s.initial_amplitude ∧ s.initial_amplitude ≤ 1 ∧
  0 ≤ s.sustain_level ∧ s.sustain_level ≤ 1 ∧
  0 ≤ s.current_amplitude ∧ s.current_amplitude ≤ 1 ∧
  0 ≤ s.release_start_amplitude ∧ s.release_start_amplitude ≤ 1

/-- States an envelope can be in: constructed by AdsrGenerator::new and
then driven by any interleaving of process calls (any buffer sizes) and
note_off requests. -/
inductive AdsrReachable : AdsrGenerator → Prop
  | base (a : ℚ) (att dec : ℕ) (su : ℚ) (sm rel : ℕ) :
      AdsrReachable (AdsrGenerator.new a att dec su sm rel)
  | step (s : AdsrGenerator) (n : ℕ) :
      AdsrReachable s → AdsrReachable (s.process n).2.1
  | off (s : AdsrGenerator) : AdsrReachable s → AdsrReachable s.note_off

/-- The envelope of the C3 counterexample: attack 1 sample, decay 1 sample,
sustain limit 2, just arrived in Sustain with accumulated count 0. -/
def cexSustain : AdsrGenerator :=
  ((AdsrGenerator.new 0 1 1 (1/2) 2 1).process 2).2.1


/-- States an FM generator can be in: constructed from any parameters and
two reachable envelopes, then driven by any interleaving of process calls
and note_off requests. -/
inductive FmReachable : FmSynthGenerator → Prop
  | base (p : FmSynthParams) (e1 e2 : AdsrGenerator) :
      AdsrReachable e1 → AdsrReachable e2 →
      FmReachable (FmSynthGenerator.new p e1 e2)
  | step (s : FmSynthGenerator) (n : ℕ) :
      FmReachable s → FmReachable (s.process n).2.1
  | off (s : FmSynthGenerator) : FmReachable s → FmReachable s.note_off

/-- Configuration of the C5 counterexample: one modulation harmonic 3 with
weight 1, base increment pi/2 and modulation depth 3 (all satisfying the
constructor assertions of FmSynthParams::new), with envelopes that hold
amplitude 1 during their 100-sample attack. -/
noncomputable def cexFm : FmSynthGenerator :=
  FmSynthGenerator.new ⟨[3], [1], Real.pi / 2, 3⟩
    (AdsrGenerator.new 1 100 100 1 100 100) (AdsrGenerator.new 1 100 100 1 100 100)


/-- The number of voices whose generator reports Complete when rendering
one n-sample frame from the current state - exactly the voices
VoiceManager::process_frame collects for removal. -/
noncomputable def VoiceManager.completed_count (m : VoiceManager) (n : ℕ) : ℕ :=
  (m.active_voices.filter
    (fun v => decide ((v.synth.process n).2.2 = GenState.Complete))).length

/-- A minimal oscillator used by the C6 witness. -/
noncomputable def cexSynth : FmSynthGenerator :=
  FmSynthGenerator.new ⟨[], [], 1, 0⟩ (AdsrGenerator.new 0 1 1 1 1 1)
    (AdsrGenerator.new 0 1 1 1 1 1)

/-- A single-voice pool used by the C6 witness. -/
noncomputable def cexVoiceMgr : VoiceManager :=
  ⟨⟨⟨[], [], 1, 0⟩, 1, 1, 1, 1⟩, [⟨⟨4, .C⟩, cexSynth, false⟩], 110, 44100⟩

lemma clamp01_bounds (x : ℚ) : 0 ≤ clamp01 x ∧ clamp01 x ≤ 1 := by
  unfold clamp01
  split_ifs with hx0 hx1
  · exact ⟨le_refl 0, zero_le_one⟩
  · exact ⟨zero_le_one, le_refl 1⟩
  · exact ⟨le_of_not_lt hx0, le_of_not_lt hx1⟩

lemma rampVal_bounds (a b : ℚ) (ha0 : 0 ≤ a) (ha1 : a ≤ 1) (hb0 : 0 ≤ b)
    (hb1 : b ≤ 1) {total pos : ℕ} (hpos : pos < total) :
    0 ≤ rampVal a b total pos ∧ rampVal a b total pos ≤ 1 := by
  have hd1 : 1 ≤ (total - 1).max 1 := Nat.le_max_right _ 1
  have hd0 : (0 : ℚ) < (((total - 1).max 1 : ℕ) : ℚ) := by exact_mod_cast hd1
  have hpd : (pos : ℚ) ≤ (((total - 1).max 1 : ℕ) : ℚ) := by
    have hp : pos ≤ (total - 1).max 1 :=
      le_trans (Nat.le_sub_one_of_lt hpos) (Nat.le_max_left _ 1)
    exact_mod_cast hp
  have ht0 : 0 ≤ (pos : ℚ) / (((total - 1).max 1 : ℕ) : ℚ) :=
    div_nonneg (Nat.cast_nonneg pos) hd0.le
  have ht1 : (pos : ℚ) / (((total - 1).max 1 : ℕ) : ℚ) ≤ 1 :=
    (div_le_one hd0).mpr hpd
  unfold rampVal
  constructor
  · nlinarith [mul_nonneg (sub_nonneg.mpr ht1) ha0, mul_nonneg ht0 hb0]
  · nlinarith [mul_nonneg (sub_nonneg.mpr ha1) (sub_nonneg.mpr ht1),
      mul_nonneg (sub_nonneg.mpr hb1) ht0]

lemma process_sustain_inv {s : AdsrGenerator} (h : AdsrInv s) (n : ℕ) :
    unitBuf (s.process_sustain n).1 ∧ AdsrInv (s.process_sustain n).2.1 := by
  obtain ⟨h1, h2, h3, h4, _, _, h7, h8⟩ := h
  constructor
  · intro x hx
    have hx' := List.eq_of_mem_replicate hx
    subst hx'
    exact ⟨h3, h4⟩
  · exact ⟨h1, h2, h3, h4, h3, h4, h7, h8⟩

lemma decayGo_inv {s : AdsrGenerator} (h : AdsrInv s) :
    ∀ (k pos : ℕ) (cur : ℚ), 0 ≤ cur → cur ≤ 1 →
      unitBuf (decayGo s pos cur k).1 ∧ AdsrInv (decayGo s pos cur k).2.1 := by
  obtain ⟨h1, h2, h3, h4, _, _, h7, h8⟩ := h
  intro k
  induction k with
  | zero =>
    intro pos cur hc0 hc1
    simp only [decayGo]
    split
    · exact ⟨fun x hx => absurd hx (List.not_mem_nil x),
        ⟨h1, h2, h3, h4, hc0, hc1, h7, h8⟩⟩
    · exact ⟨fun x hx => absurd hx (List.not_mem_nil x),
        ⟨h1, h2, h3, h4, hc0, hc1, h7, h8⟩⟩
  | succ k ih =>
    intro pos cur hc0 hc1
    simp only [decayGo]
    split
    · rename_i hlt
      have ha := rampVal_bounds 1 s.sustain_level (by norm_num) (by norm_num) h3 h4 hlt
      obtain ⟨hbuf, hst⟩ := ih (pos + 1) _ ha.1 ha.2
      refine ⟨?_, hst⟩
      intro x hx
      rcases List.mem_cons.mp hx with rfl | hx'
      · exact ha
      · exact hbuf x hx'
    · refine process_sustain_inv ?_ (k + 1)
      exact ⟨h1, h2, h3, h4, hc0, hc1, h7, h8⟩

lemma attackGo_inv {s : AdsrGenerator} (h : AdsrInv s) :
    ∀ (k pos : ℕ) (cur : ℚ), 0 ≤ cur → cur ≤ 1 →
      unitBuf (attackGo s pos cur k).1 ∧ AdsrInv (attackGo s pos cur k).2.1 := by
  obtain ⟨h1, h2, h3, h4, _, _, h7, h8⟩ := h
  intro k
  induction k with
  | zero =>
    intro pos cur hc0 hc1
    simp only [attackGo]
    split
    · exact ⟨fun x hx => absurd hx (List.not_mem_nil x),
        ⟨h1, h2, h3, h4, hc0, hc1, h7, h8⟩⟩
    · exact ⟨fun x hx => absurd hx (List.not_mem_nil x),
        ⟨h1, h2, h3, h4, hc0, hc1, h7, h8⟩⟩
  | succ k ih =>
    intro pos cur hc0 hc1
    simp only [attackGo]
    split
    · rename_i hlt
      have ha := rampVal_bounds s.initial_amplitude 1 h1 h2 (by norm_num) (by norm_num) hlt
      obtain ⟨hbuf, hst⟩ := ih (pos + 1) _ ha.1 ha.2
      refine ⟨?_, hst⟩
      intro x hx
      rcases List.mem_cons.mp hx with rfl | hx'
      · exact ha
      · exact hbuf x hx'
    · simp only [AdsrGenerator.process_decay]
      refine decayGo_inv ?_ (k + 1) _ _ hc0 hc1
      exact ⟨h1, h2, h3, h4, hc0, hc1, h7, h8⟩

lemma releaseGo_inv {s : AdsrGenerator} (h : AdsrInv s) :
    ∀ (k pos : ℕ) (cur : ℚ), 0 ≤ cur → cur ≤ 1 →
      unitBuf (releaseGo s pos cur k).1 ∧ AdsrInv (releaseGo s pos cur k).2.1 := by
  obtain ⟨h1, h2, h3, h4, _, _, h7, h8⟩ := h
  intro k
  induction k with
  | zero =>
    intro pos cur hc0 hc1
    simp only [releaseGo]
    split
    · exact ⟨fun x hx => absurd hx (List.not_mem_nil x),
        ⟨h1, h2, h3, h4, hc0, hc1, h7, h8⟩⟩
    · exact ⟨fun x hx => absurd hx (List.not_mem_nil x),
        ⟨h1, h2, h3, h4, hc0, hc1, h7, h8⟩⟩
  | succ k ih =>
    intro pos cur hc0 hc1
    simp only [releaseGo]
    split
    · rename_i hlt
      have ha := rampVal_bounds s.release_start_amplitude 0 h7 h8 (by norm_num) (by norm_num) hlt
      obtain ⟨hbuf, hst⟩ := ih (pos + 1) _ ha.1 ha.2
      refine ⟨?_, hst⟩
      intro x hx
      rcases List.mem_cons.mp hx with rfl | hx'
      · exact ha
      · exact hbuf x hx'
    · refine ⟨?_, ⟨h1, h2, h3, h4, le_refl 0, by norm_num, h7, h8⟩⟩
      intro x hx
      have hx' := List.eq_of_mem_replicate hx
      subst hx'
      norm_num

lemma process_events_inv {s : AdsrGenerator} (h : AdsrInv s) :
    AdsrInv s.process_events := by
  obtain ⟨h1, h2, h3, h4, h5, h6, h7, h8⟩ := h
  unfold AdsrGenerator.process_events
  cases hp : s.pending_note_off <;> cases hph : s.phase <;>
    simp [hp, hph] <;> (try split_ifs) <;>
    first
    | exact ⟨h1, h2, h3, h4, h5, h6, h5, h6⟩
    | exact ⟨h1, h2, h3, h4, h5, h6, h7, h8⟩

lemma process_inv {s : AdsrGenerator} (h : AdsrInv s) (n : ℕ) :
    unitBuf (s.process n).1 ∧ AdsrInv (s.process n).2.1 := by
  have he := process_events_inv h
  obtain ⟨h1, h2, h3, h4, h5, h6, h7, h8⟩ := he
  unfold AdsrGenerator.process
  cases hph : s.process_events.phase <;>
    simp only [hph, AdsrGenerator.process_attack, AdsrGenerator.process_decay,
      AdsrGenerator.process_release]
  · refine attackGo_inv ?_ n _ _ h5 h6
    exact ⟨h1, h2, h3, h4, h5, h6, h7, h8⟩
  · refine decayGo_inv ?_ n _ _ h5 h6
    exact ⟨h1, h2, h3, h4, h5, h6, h7, h8⟩
  · refine process_sustain_inv ?_ n
    exact ⟨h1, h2, h3, h4, h5, h6, h7, h8⟩
  · refine releaseGo_inv ?_ n _ _ h5 h6
    exact ⟨h1, h2, h3, h4, h5, h6, h7, h8⟩
  · refine ⟨?_, ⟨h1, h2, h3, h4, le_refl 0, by norm_num, h7, h8⟩⟩
    intro x hx
    have hx' := List.eq_of_mem_replicate hx
    subst hx'
    norm_num

lemma adsrReachable_inv {s : AdsrGenerator} (h : AdsrReachable s) : AdsrInv s := by
  induction h with
  | base a att dec su sm rel =>
    obtain ⟨hi0, hi1⟩ := clamp01_bounds a
    obtain ⟨hs0, hs1⟩ := clamp01_bounds su
    exact ⟨hi0, hi1, hs0, hs1, hi0, hi1, le_refl 0, zero_le_one⟩
  | step s n _ ih => exact (process_inv ih n).2
  | off s _ ih => exact ih

/-- C1: for every envelope configuration (after construction-time clamping)
and every sequence of process calls with arbitrary buffer sizes and
note_off timings, the current amplitude and every amplitude sample written
stay within [0, 1] from Attack through Complete. -/
theorem adsr_amplitude_unit_range (s : AdsrGenerator) (h : AdsrReachable s) (n : ℕ) :
    (0 ≤ s.current_amplitude ∧ s.current_amplitude ≤ 1) ∧
    ∀ x ∈ (s.process n).1, 0 ≤ x ∧ x ≤ 1 := by
  have hi := adsrReachable_inv h
  exact ⟨⟨hi.2.2.2.2.1, hi.2.2.2.2.2.1⟩, (process_inv hi n).1⟩

/-- Witness for the C1 theorem at a freshly constructed envelope. -/
theorem adsr_amplitude_unit_range_witness :
    (0 ≤ (AdsrGenerator.new 0 2 2 (1/2) 3 2).current_amplitude ∧
      (AdsrGenerator.new 0 2 2 (1/2) 3 2).current_amplitude ≤ 1) ∧
    ∀ x ∈ ((AdsrGenerator.new 0 2 2 (1/2) 3 2).process 3).1, 0 ≤ x ∧ x ≤ 1 :=
  adsr_amplitude_unit_range _ (AdsrReachable.base 0 2 2 (1/2) 3 2) 3

/-- C3 (amended): the sustain timeout is checked only at frame boundaries.
A process call that begins with the accumulated sustain count already at or
past sustain_max_duration transitions to Release at its start (capturing
the current amplitude); a call that begins below the threshold renders its
whole buffer in Sustain - even past the threshold - and only accumulates. -/
theorem sustain_timeout_frame_boundary (s : AdsrGenerator) (n : ℕ)
    (hph : s.phase = .Sustain) (hpend : s.pending_note_off = false) :
    (s.sustain_max_duration ≤ s.sustain_position →
      s.process_events.phase = .Release ∧
      s.process_events.release_start_amplitude = s.current_amplitude ∧
      s.process_events.position = 0) ∧
    (s.sustain_position < s.sustain_max_duration →
      (s.process n).1 = List.replicate n s.sustain_level ∧
      (s.process n).2.1.phase = .Sustain ∧
      (s.process n).2.1.sustain_position = s.sustain_position + n) := by
  constructor
  · intro hle
    unfold AdsrGenerator.process_events
    simp [hpend, hph, hle]
  · intro hlt
    have hev : s.process_events = s := by
      unfold AdsrGenerator.process_events
      simp [hpend, hph, Nat.not_le.mpr hlt]
    unfold AdsrGenerator.process
    rw [hev]
    simp [hph, AdsrGenerator.process_sustain]

/-- Witness for the C3 theorem: an envelope sitting in Sustain with count 0
and limit 2, processed with a 5-sample buffer. -/
theorem sustain_timeout_frame_boundary_witness :
    ((⟨0, 1, 1, 1/2, 2, 1, .Sustain, 0, 0, 1/2, 0, false⟩ :
        AdsrGenerator).process 5).1 = List.replicate 5 (1/2) ∧
    ((⟨0, 1, 1, 1/2, 2, 1, .Sustain, 0, 0, 1/2, 0, false⟩ :
        AdsrGenerator).process 5).2.1.phase = .Sustain ∧
    ((⟨0, 1, 1, 1/2, 2, 1, .Sustain, 0, 0, 1/2, 0, false⟩ :
        AdsrGenerator).process 5).2.1.sustain_position = 0 + 5 :=
  (sustain_timeout_frame_boundary
    ⟨0, 1, 1, 1/2, 2, 1, .Sustain, 0, 0, 1/2, 0, false⟩ 5 rfl rfl).2
    (by decide)

/-- C3 counterexample: with sustain_max_duration = 2 a single 5-sample
process call emits five Sustain samples and leaves the envelope still in
Sustain with accumulated count 5 - the third sample (the first one after
the count reached 2) is not a Release sample, so the transition point
depends on the buffer split. -/
theorem sustain_overrun_counterexample :
    cexSustain.phase = .Sustain ∧ cexSustain.sustain_position = 0 ∧
    cexSustain.sustain_max_duration = 2 ∧
    (cexSustain.process 5).1 = List.replicate 5 (1/2) ∧
    (cexSustain.process 5).2.1.phase = .Sustain ∧
    (cexSustain.process 5).2.1.sustain_position = 5 := by
  norm_num [cexSustain, AdsrGenerator.process, AdsrGenerator.process_events,
    AdsrGenerator.process_attack, AdsrGenerator.process_decay,
    AdsrGenerator.process_sustain, attackGo, decayGo, rampVal,
    AdsrGenerator.new, clamp01, List.replicate]

/-- C4 (amended): the ramp parameter at position p is p / max(L-1, 1), so
position 0 yields the start amplitude and, for L at least 2, position L-1
yields the end amplitude; in the degenerate case L = 1 the single sample of
the phase equals the start amplitude (its parameter is 0). -/
theorem ramp_interpolation_endpoints (a b : ℚ) (L : ℕ) :
    rampVal a b L 0 = a ∧ (2 ≤ L → rampVal a b L (L - 1) = b) ∧
    rampVal a b 1 0 = a := by
  refine ⟨?_, ?_, ?_⟩
  · unfold rampVal
    simp
  · intro hL
    unfold rampVal
    have h1 : (L - 1).max 1 = L - 1 := max_eq_left (by omega)
    rw [h1]
    rw [div_self (by exact_mod_cast (by omega : L - 1 ≠ 0) : ((L - 1 : ℕ) : ℚ) ≠ 0)]
    ring
  · unfold rampVal
    simp

/-- Witness for the C4 theorem on a ramp of length 5 from 1/4 to 3/4. -/
theorem ramp_interpolation_endpoints_witness :
    rampVal (1/4) (3/4) 5 0 = 1/4 ∧ rampVal (1/4) (3/4) 5 (5 - 1) = 3/4 := by
  obtain ⟨w1, w2, _⟩ := ramp_interpolation_endpoints (1/4) (3/4) 5
  exact ⟨w1, w2 (by norm_num)⟩

/-- C4 counterexample: an attack phase of length L = 1 with initial (start)
amplitude 1/2 writes its single sample as the start amplitude 1/2, not the
end amplitude 1.0 claimed for the degenerate case. -/
theorem ramp_degenerate_counterexample :
    ((AdsrGenerator.new (1/2) 1 1 (1/2) 1 1).process 1).1 = [1/2] ∧
    ((1 : ℚ)/2) ≠ 1 := by
  norm_num [AdsrGenerator.process, AdsrGenerator.process_events,
    AdsrGenerator.process_attack, AdsrGenerator.process_decay, attackGo, decayGo,
    rampVal, AdsrGenerator.new, clamp01]

/-- C10: once the envelope is in Release or Complete, note_off followed by
process produces exactly the same buffer, state (phase, position,
release-start amplitude, everything) and status as process alone: a release
in progress is never restarted, only the pending flag is consumed. -/
theorem note_off_noop_in_release (s : AdsrGenerator) (n : ℕ)
    (h : s.phase = .Release ∨ s.phase = .Complete) :
    s.note_off.process n = s.process n := by
  have hev : s.note_off.process_events = s.process_events := by
    cases s with
    | mk ia ad dd sl smd rd ph pos sp ca rsa pend =>
      rcases h with h | h <;> cases pend <;>
        simp_all [AdsrGenerator.note_off, AdsrGenerator.process_events]
  unfold AdsrGenerator.process
  rw [hev]

/-- Witness for the C10 theorem at an envelope mid-Release. -/
theorem note_off_noop_in_release_witness :
    (⟨0, 1, 1, 1/2, 1, 2, .Release, 0, 0, 1/2, 1/2, false⟩ :
      AdsrGenerator).note_off.process 3 =
    (⟨0, 1, 1, 1/2, 1, 2, .Release, 0, 0, 1/2, 1/2, false⟩ :
      AdsrGenerator).process 3 :=
  note_off_noop_in_release _ 3 (Or.inl rfl)

lemma rustTrunc_eq_of_nonneg (q : ℝ) (k : ℤ) (hk : 0 ≤ k) (h1 : (k : ℝ) ≤ q)
    (h2 : q < k + 1) : rustTrunc q = k := by
  unfold rustTrunc
  rw [if_pos (le_trans (by exact_mod_cast hk) h1)]
  exact Int.floor_eq_iff.mpr ⟨h1, h2⟩

lemma rustTrunc_eq_of_nonpos (q : ℝ) (k : ℤ) (hk : k ≤ 0) (h1 : (k : ℝ) - 1 < q)
    (h2 : q ≤ k) : rustTrunc q = k := by
  unfold rustTrunc
  split_ifs with h
  · have hk' : (0 : ℝ) ≤ (k : ℝ) := le_trans h h2
    have hq0 : q = 0 := le_antisymm (le_trans h2 (by exact_mod_cast hk)) h
    have hk0 : k = 0 := le_antisymm hk (by exact_mod_cast hk')
    rw [hq0, hk0]
    simp
  · have hfl : ⌊-q⌋ = -k := by
      refine Int.floor_eq_iff.mpr ⟨?_, ?_⟩
      · push_cast
        linarith
      · push_cast
        linarith
    rw [hfl]
    ring

lemma rustRem_eq_of_nonneg (x y : ℝ) (k : ℤ) (hy : 0 < y) (hk : 0 ≤ k)
    (h1 : (k : ℝ) * y ≤ x) (h2 : x < ((k : ℝ) + 1) * y) :
    rustRem x y = x - y * k := by
  unfold rustRem
  rw [rustTrunc_eq_of_nonneg (x / y) k hk ((le_div_iff₀ hy).mpr h1)
    ((div_lt_iff₀ hy).mpr h2)]

lemma rustRem_eq_of_nonpos (x y : ℝ) (k : ℤ) (hy : 0 < y) (hk : k ≤ 0)
    (h1 : ((k : ℝ) - 1) * y < x) (h2 : x ≤ (k : ℝ) * y) :
    rustRem x y = x - y * k := by
  unfold rustRem
  rw [rustTrunc_eq_of_nonpos (x / y) k hk ((lt_div_iff₀ hy).mpr h1)
    ((div_le_iff₀ hy).mpr h2)]

lemma abs_rustRem_lt (x : ℝ) {y : ℝ} (hy : 0 < y) : |rustRem x y| < y := by
  have hy' : y ≠ 0 := ne_of_gt hy
  have hxy : x - y * (rustTrunc (x / y) : ℝ) =
      y * (x / y - (rustTrunc (x / y) : ℝ)) := by
    field_simp
  rw [rustRem, hxy, abs_mul, abs_of_pos hy]
  have hfr : |x / y - (rustTrunc (x / y) : ℝ)| < 1 := by
    unfold rustTrunc
    split_ifs with h
    · rw [abs_of_nonneg (sub_nonneg.mpr (Int.floor_le _))]
      have := Int.lt_floor_add_one (x / y)
      linarith
    · push_cast
      rw [abs_of_nonpos]
      · have := Int.lt_floor_add_one (-(x / y))
        linarith
      · have := Int.floor_le (-(x / y))
        linarith
  nlinarith

lemma fmGo_phase_lt (p : FmSynthParams) :
    ∀ (me we : List ℚ) (ph : ℝ) (cnt : ℕ), |ph| < 2 * Real.pi →
      |(fmGo p ph cnt me we).2.1| < 2 * Real.pi := by
  intro me
  induction me with
  | nil =>
    intro we ph cnt h
    cases we <;> simpa [fmGo] using h
  | cons m ms ih =>
    intro we ph cnt h
    cases we with
    | nil => simpa [fmGo] using h
    | cons w ws =>
      simp only [fmGo]
      exact ih ws _ _ (abs_rustRem_lt _ (by positivity))

lemma fmGo_out_le_one (p : FmSynthParams) :
    ∀ (me we : List ℚ) (ph : ℝ) (cnt : ℕ), unitBuf we →
      ∀ x ∈ (fmGo p ph cnt me we).1, |x| ≤ 1 := by
  intro me
  induction me with
  | nil =>
    intro we ph cnt hwe x hx
    cases we <;> simp [fmGo] at hx
  | cons m ms ih =>
    intro we ph cnt hwe x hx
    cases we with
    | nil => simp [fmGo] at hx
    | cons w ws =>
      simp only [fmGo, List.mem_cons] at hx
      rcases hx with rfl | hx
      · obtain ⟨hw0, hw1⟩ := hwe w (List.mem_cons_self w ws)
        rw [abs_mul]
        have hs := Real.abs_sin_le_one (rustRem
          (ph + 2 * Real.pi * (p.phase_per_sample *
            (1 + compute_modulation p cnt * p.mod_depth * (m : ℝ)))) (2 * Real.pi))
        have hw : |(w : ℝ)| ≤ 1 := by
          rw [abs_of_nonneg (by exact_mod_cast hw0)]
          exact_mod_cast hw1
        nlinarith [abs_nonneg (Real.sin (rustRem
          (ph + 2 * Real.pi * (p.phase_per_sample *
            (1 + compute_modulation p cnt * p.mod_depth * (m : ℝ)))) (2 * Real.pi))),
          abs_nonneg ((w : ℝ))]
      · exact ih ws _ _ (fun z hz => hwe z (List.mem_cons_of_mem w hz)) x hx

lemma fmReachable_wav {s : FmSynthGenerator} (h : FmReachable s) :
    AdsrReachable s.wav_env := by
  induction h with
  | base p e1 e2 h1 h2 => exact h2
  | step s n _ ih =>
    simp only [FmSynthGenerator.process]
    exact AdsrReachable.step s.wav_env n ih
  | off s _ ih =>
    simp only [FmSynthGenerator.note_off]
    exact AdsrReachable.off s.wav_env ih

/-- C2: for every FM oscillator configuration (any parameters, envelopes
constructed by AdsrGenerator::new and driven arbitrarily) and every
process call, every output sample has magnitude at most 1: the output is
sin(phase) times the waveform-envelope value, which lies in [0, 1]. -/
theorem fm_output_magnitude_le_one (s : FmSynthGenerator) (h : FmReachable s)
    (n : ℕ) : ∀ x ∈ (s.process n).1, |x| ≤ 1 := by
  have hw : AdsrReachable s.wav_env := fmReachable_wav h
  have hbuf := (process_inv (adsrReachable_inv hw) n).1
  simp only [FmSynthGenerator.process]
  exact fmGo_out_le_one s.params _ _ _ _ hbuf

/-- Witness for the C2 theorem: the first sample of a two-sample run of a
freshly constructed generator has magnitude at most 1. -/
theorem fm_output_magnitude_le_one_witness :
    |((FmSynthGenerator.new ⟨[2], [1], 1/10, 1⟩
        (AdsrGenerator.new 0 2 2 (1/2) 3 2)
        (AdsrGenerator.new 0 2 2 (1/2) 3 2)).process 2).1.getD 0 0| ≤ 1 := by
  have h := fm_output_magnitude_le_one _
    (FmReachable.base ⟨[2], [1], 1/10, 1⟩ _ _ (AdsrReachable.base 0 2 2 (1/2) 3 2)
      (AdsrReachable.base 0 2 2 (1/2) 3 2)) 2
  rcases hl : ((FmSynthGenerator.new ⟨[2], [1], 1/10, 1⟩
      (AdsrGenerator.new 0 2 2 (1/2) 3 2)
      (AdsrGenerator.new 0 2 2 (1/2) 3 2)).process 2).1 with _ | ⟨a, l⟩
  · simp [List.getD]
  · have ha := h a (by rw [hl]; exact List.mem_cons_self a l)
    simpa [hl, List.getD] using ha

/-- C5 (amended): the stored phase always has magnitude strictly below
2*pi (the Rust % operator keeps the sign of its dividend, so with a
negative instantaneous frequency the wrapped phase can be negative; it is
not re-wrapped into [0, 2*pi)). -/
theorem fm_phase_magnitude_lt_two_pi (s : FmSynthGenerator) (h : FmReachable s) :
    |s.phase| < 2 * Real.pi := by
  induction h with
  | base p e1 e2 h1 h2 =>
    simp only [FmSynthGenerator.new]
    rw [abs_zero]
    positivity
  | step s n _ ih =>
    simp only [FmSynthGenerator.process]
    exact fmGo_phase_lt s.params _ _ _ _ ih
  | off s _ ih =>
    simpa [FmSynthGenerator.note_off] using ih

/-- Witness for the C5 theorem at a freshly constructed generator. -/
theorem fm_phase_magnitude_lt_two_pi_witness :
    |(FmSynthGenerator.new ⟨[2], [1], 1/10, 1⟩
        (AdsrGenerator.new 0 2 2 (1/2) 3 2)
        (AdsrGenerator.new 0 2 2 (1/2) 3 2)).phase| < 2 * Real.pi :=
  fm_phase_magnitude_lt_two_pi _
    (FmReachable.base _ _ _ (AdsrReachable.base 0 2 2 (1/2) 3 2)
      (AdsrReachable.base 0 2 2 (1/2) 3 2))

/-- C5 counterexample: a legitimate oscillator configuration (the
constructor assertions hold and the state is exactly the one built by
FmSynthGenerator::new) in which the modulation at sample 1 is
sin(3*pi/2) = -1, making the instantaneous frequency pi/2 * (1 - 3) < 0;
after two samples the stored phase is 2*pi - pi^2 < 0.  The Rust %
operator keeps the sign of its dividend, so the phase accumulator is not
wrapped back into [0, 2*pi) when the instantaneous frequency is negative,
contradicting the claim. -/
theorem fm_phase_negative_counterexample :
    cexFm.params.valid ∧ FmReachable cexFm ∧ (cexFm.process 2).2.1.phase < 0 := by
  refine ⟨?_, FmReachable.base _ _ _ (AdsrReachable.base 1 100 100 1 100 100)
      (AdsrReachable.base 1 100 100 1 100 100), ?_⟩
  · show FmSynthParams.valid ⟨[3], [1], Real.pi / 2, 3⟩
    exact ⟨rfl, by positivity, by linarith [Real.pi_pos], by norm_num⟩
  have hbuf : ((AdsrGenerator.new 1 100 100 1 100 100).process 2).1 = [1, 1] := by
    norm_num [AdsrGenerator.process, AdsrGenerator.process_events,
      AdsrGenerator.process_attack, attackGo, rampVal, AdsrGenerator.new, clamp01]
  have hph : (cexFm.process 2).2.1.phase =
      (fmGo ⟨[3], [1], Real.pi / 2, 3⟩ 0 0 [1, 1] [1, 1]).2.1 := by
    simp only [cexFm, FmSynthGenerator.new, FmSynthGenerator.process, hbuf]
  have h0 : compute_modulation ⟨[3], [1], Real.pi / 2, 3⟩ 0 = 0 := by
    simp [compute_modulation]
  have h1 : compute_modulation ⟨[3], [1], Real.pi / 2, 3⟩ 1 = -1 := by
    have harg : (3 : ℝ) * (Real.pi / 2) = Real.pi + Real.pi / 2 := by ring
    have hsin : Real.sin (Real.pi + Real.pi / 2) = -1 := by
      rw [Real.sin_add, Real.sin_pi, Real.cos_pi, Real.sin_pi_div_two]
      ring
    simp [compute_modulation, harg, hsin]
  have hgo : (fmGo ⟨[3], [1], Real.pi / 2, 3⟩ 0 0 [1, 1] [1, 1]).2.1 =
      rustRem (rustRem (2 * Real.pi * (Real.pi / 2 * (1 + 0 * 3 * 1))) (2 * Real.pi)
        + 2 * Real.pi * (Real.pi / 2 * (1 + -1 * 3 * 1))) (2 * Real.pi) := by
    simp only [fmGo, zero_add, Rat.cast_one, h0, h1]
  have e1 : rustRem (2 * Real.pi * (Real.pi / 2 * (1 + 0 * 3 * 1))) (2 * Real.pi)
      = Real.pi * Real.pi - 2 * Real.pi := by
    have ha : 2 * Real.pi * (Real.pi / 2 * (1 + 0 * 3 * 1)) = Real.pi * Real.pi := by
      ring
    rw [ha, rustRem_eq_of_nonneg _ _ 1 (by positivity) (by norm_num)
      (by push_cast; nlinarith [Real.pi_gt_three, Real.pi_pos])
      (by push_cast; nlinarith [Real.pi_lt_four, Real.pi_pos])]
    push_cast
    ring
  have e2 : rustRem (Real.pi * Real.pi - 2 * Real.pi
        + 2 * Real.pi * (Real.pi / 2 * (1 + -1 * 3 * 1))) (2 * Real.pi)
      = 2 * Real.pi - Real.pi * Real.pi := by
    have ha : Real.pi * Real.pi - 2 * Real.pi
        + 2 * Real.pi * (Real.pi / 2 * (1 + -1 * 3 * 1))
        = -(Real.pi * Real.pi) - 2 * Real.pi := by
      ring
    rw [ha, rustRem_eq_of_nonpos _ _ (-2) (by positivity) (by norm_num)
      (by push_cast; nlinarith [Real.pi_lt_four, Real.pi_pos])
      (by push_cast; nlinarith [Real.pi_gt_three, Real.pi_pos])]
    push_cast
    ring
  rw [hph, hgo, e1, e2]
  nlinarith [Real.pi_gt_three, Real.pi_pos]

/-- C9: for every base frequency and sample rate, two notes with the same
pitch class whose octaves differ by one yield derived base phase increments
differing by exactly a factor of 2. -/
theorem octave_doubles_phase_increment (m : VoiceManager) (oct : ℕ)
    (pc : PitchClass) :
    m.phase_per_sample (m.note_frequency ⟨oct + 1, pc⟩) =
      2 * m.phase_per_sample (m.note_frequency ⟨oct, pc⟩) := by
  simp only [VoiceManager.phase_per_sample, VoiceManager.note_frequency]
  have key : (2 : ℝ) ^ (((((oct + 1 : ℕ) : ℝ) - 1) * 12 + (pc.semitone : ℝ)) / 12)
      = (2 : ℝ) ^ (((((oct : ℕ) : ℝ) - 1) * 12 + (pc.semitone : ℝ)) / 12) * 2 := by
    rw [show ((((oct + 1 : ℕ) : ℝ) - 1) * 12 + (pc.semitone : ℝ)) / 12
        = ((((oct : ℕ) : ℝ) - 1) * 12 + (pc.semitone : ℝ)) / 12 + 1 from by
      push_cast
      ring]
    rw [Real.rpow_add (by norm_num : (0 : ℝ) < 2), Real.rpow_one]
  rw [key]
  ring

lemma renderGo_count_le : ∀ (fuel : ℕ) (p : Pipeline) (c : ℕ),
    (renderGo fuel p c).1 ≤ c + fuel := by
  intro fuel
  induction fuel with
  | zero => intro p c; simp [renderGo]
  | succ fuel ih =>
    intro p c
    simp only [renderGo]
    split
    · calc (renderGo fuel (p.process_frame p.config.frame_size).2 (c + 1)).1
          ≤ c + 1 + fuel := ih _ _
        _ = c + (fuel + 1) := by omega
    · omega

lemma trailingGo_count_le : ∀ (fuel : ℕ) (p : Pipeline) (c : ℕ),
    (trailingGo fuel p c).1 ≤ c + fuel := by
  intro fuel
  induction fuel with
  | zero => intro p c; simp [trailingGo]
  | succ fuel ih =>
    intro p c
    simp only [trailingGo]
    split
    · calc (trailingGo fuel (p.process_frame p.config.frame_size).2 (c + 1)).1
          ≤ c + 1 + fuel := ih _ _
        _ = c + (fuel + 1) := by omega
    · omega

/-- C8: for every configuration and finite event timeline (whatever the
envelopes do), the render loop of generate_wav terminates with at most
max_render_iterations frames - the hard cap derived from the timeline span
and the release duration - plus at most 10 trailing flush frames. -/
theorem generate_wav_frames_bounded (p : Pipeline) :
    p.generate_wav_frames ≤ p.max_render_iterations + 10 := by
  simp only [Pipeline.generate_wav_frames]
  have h1 := renderGo_count_le p.max_render_iterations p 0
  have h2 := trailingGo_count_le 10 (renderGo p.max_render_iterations p 0).2 0
  omega

lemma releaseFirst_eq_of_none (note : Note) :
    ∀ l : List Voice, (∀ v ∈ l, v.note = note → v.is_releasing = true) →
      releaseFirst l note = l := by
  intro l
  induction l with
  | nil => intro _; rfl
  | cons v vs ih =>
    intro h
    have hcond : ¬(v.note == note && !v.is_releasing) = true := by
      rw [Bool.and_eq_true, beq_iff_eq, Bool.not_eq_true']
      rintro ⟨h1, h2⟩
      rw [h v (List.mem_cons_self v vs) h1] at h2
      exact absurd h2 (by simp)
    simp only [releaseFirst]
    rw [if_neg hcond, ih (fun w hw => h w (List.mem_cons_of_mem v hw))]

lemma releaseFirst_length (note : Note) :
    ∀ l : List Voice, (releaseFirst l note).length = l.length := by
  intro l
  induction l with
  | nil => rfl
  | cons v vs ih =>
    simp only [releaseFirst]
    split
    · simp
    · simp [ih]

lemma kept_add_completed (n : ℕ) :
    ∀ l : List Voice,
      ((l.map (fun v =>
          ({ v with synth := (v.synth.process n).2.1 },
            (v.synth.process n).1, (v.synth.process n).2.2))).filterMap
        (fun vr => if vr.2.2 = GenState.Complete then none else some vr.1)).length
      + (l.filter
          (fun v => decide ((v.synth.process n).2.2 = GenState.Complete))).length
      = l.length := by
  intro l
  induction l with
  | nil => rfl
  | cons v vs ih =>
    simp only [List.map_cons, List.filterMap_cons, List.filter_cons]
    by_cases hc : (v.synth.process n).2.2 = GenState.Complete
    · simp only [List.filterMap_map] at ih
      simp [hc]
      omega
    · simp only [List.filterMap_map] at ih
      simp [hc]
      omega

/-- C6: Down on a note with a live non-releasing voice leaves the manager
unchanged; Up with no non-releasing voice for the note leaves it unchanged;
handle_event never shrinks the pool; and process_frame removes exactly the
voices whose oscillator reported Complete, so the count decreases only when
some voice completes during the frame. -/
theorem voice_pool_event_semantics (m : VoiceManager) (note : Note) (n : ℕ) :
    ((∃ v ∈ m.active_voices, v.note = note ∧ v.is_releasing = false) →
      m.handle_event note .Down = m) ∧
    ((∀ v ∈ m.active_voices, v.note = note → v.is_releasing = true) →
      m.handle_event note .Up = m) ∧
    (∀ dir : KeyDirection,
      m.active_voices.length ≤ (m.handle_event note dir).active_voices.length) ∧
    ((m.process_frame n).2.active_voices.length + m.completed_count n
      = m.active_voices.length) ∧
    ((m.process_frame n).2.active_voices.length < m.active_voices.length →
      ∃ v ∈ m.active_voices, (v.synth.process n).2.2 = GenState.Complete) := by
  have hframe : (m.process_frame n).2.active_voices.length + m.completed_count n
      = m.active_voices.length := by
    simp only [VoiceManager.process_frame, VoiceManager.completed_count]
    split
    · rename_i hem
      rw [List.isEmpty_iff.mp hem]
      rfl
    · exact kept_add_completed n m.active_voices
  refine ⟨?_, ?_, ?_, hframe, ?_⟩
  · rintro ⟨v, hv, hnote, hrel⟩
    simp only [VoiceManager.handle_event]
    rw [if_pos]
    exact List.any_eq_true.mpr ⟨v, hv, by rw [hnote, hrel]; simp⟩
  · intro h
    simp only [VoiceManager.handle_event]
    rw [releaseFirst_eq_of_none note m.active_voices h]
  · intro dir
    cases dir with
    | Down =>
      simp only [VoiceManager.handle_event]
      split
      · exact le_refl _
      · simp
    | Up =>
      simp only [VoiceManager.handle_event]
      rw [releaseFirst_length]
  · intro hlt
    have hpos : 0 < m.completed_count n := by omega
    unfold VoiceManager.completed_count at hpos
    obtain ⟨v, hv⟩ := List.exists_mem_of_length_pos hpos
    obtain ⟨hvl, hdec⟩ := List.mem_filter.mp hv
    exact ⟨v, hvl, of_decide_eq_true hdec⟩

/-- Witness for the C6 theorem on a one-voice pool. -/
theorem voice_pool_event_semantics_witness :
    cexVoiceMgr.handle_event ⟨4, .C⟩ .Down = cexVoiceMgr ∧
    (cexVoiceMgr.process_frame 1).2.active_voices.length +
      cexVoiceMgr.completed_count 1 = cexVoiceMgr.active_voices.length := by
  refine ⟨(voice_pool_event_semantics cexVoiceMgr ⟨4, .C⟩ 1).1 ?_,
    (voice_pool_event_semantics cexVoiceMgr ⟨4, .C⟩ 1).2.2.2.1⟩
  exact ⟨⟨⟨4, .C⟩, cexSynth, false⟩, by simp [cexVoiceMgr], rfl, rfl⟩

lemma tanh_eq_one_sub (x : ℝ) :
    Real.tanh x = 1 - 2 / (Real.exp (2 * x) + 1) := by
  rw [Real.tanh_eq_sinh_div_cosh, Real.sinh_eq, Real.cosh_eq, Real.exp_neg]
  have hx : Real.exp x ≠ 0 := Real.exp_ne_zero x
  have h3 : Real.exp (2 * x) = Real.exp x * Real.exp x := by
    rw [two_mul, Real.exp_add]
  have h4 : (0:ℝ) < Real.exp x * Real.exp x + 1 := by positivity
  have h5 : (0:ℝ) < Real.exp x + (Real.exp x)⁻¹ := by positivity
  rw [h3]
  field_simp
  ring

lemma tanh_le_tanh {x y : ℝ} (h : x ≤ y) : Real.tanh x ≤ Real.tanh y := by
  rw [tanh_eq_one_sub, tanh_eq_one_sub]
  have h1 : Real.exp (2 * x) ≤ Real.exp (2 * y) := Real.exp_le_exp.mpr (by linarith)
  have h2 : (0:ℝ) < Real.exp (2 * x) + 1 := by positivity
  have h3 : 2 / (Real.exp (2 * y) + 1) ≤ 2 / (Real.exp (2 * x) + 1) := by
    gcongr
  linarith

lemma tanh_nonneg' {x : ℝ} (h : 0 ≤ x) : 0 ≤ Real.tanh x := by
  have := tanh_le_tanh h
  rwa [Real.tanh_zero] at this

lemma tendsto_tanh_one : Filter.Tendsto Real.tanh Filter.atTop (nhds 1) := by
  have hg : Filter.Tendsto (fun x : ℝ => Real.exp (2 * x) + 1) Filter.atTop Filter.atTop := by
    apply Filter.tendsto_atTop_add_const_right
    exact Real.tendsto_exp_atTop.comp (Filter.Tendsto.const_mul_atTop two_pos Filter.tendsto_id)
  have h2 : Filter.Tendsto (fun x : ℝ => 2 / (Real.exp (2 * x) + 1))
      Filter.atTop (nhds 0) := Filter.Tendsto.div_atTop tendsto_const_nhds hg
  have h3 := (tendsto_const_nhds (x := (1:ℝ)) (f := Filter.atTop)).sub h2
  rw [sub_zero] at h3
  exact h3.congr (fun x => (tanh_eq_one_sub x).symm)

lemma sc_of_gt_one {x : ℝ} (h : 1 < x) : soft_clip x = 1 + Real.tanh (x - 1) * 0.5 := by
  have hx : |x| = x := abs_of_pos (by linarith)
  unfold soft_clip signum
  rw [if_neg (by rw [hx]; linarith), if_pos (by linarith), hx, one_mul]

lemma sc_of_lt_neg_one {x : ℝ} (h : x < -1) :
    soft_clip x = -(1 + Real.tanh (-x - 1) * 0.5) := by
  have hx : |x| = -x := abs_of_neg (by linarith)
  unfold soft_clip signum
  rw [if_neg (by rw [hx]; linarith), if_neg (by linarith), hx]
  ring

lemma one_le_sc_of_gt {x : ℝ} (h : 1 < x) : 1 ≤ soft_clip x := by
  rw [sc_of_gt_one h]
  have := tanh_nonneg' (by linarith : (0:ℝ) ≤ x - 1)
  linarith

lemma sc_le_neg_one_of_lt {x : ℝ} (h : x < -1) : soft_clip x ≤ -1 := by
  rw [sc_of_lt_neg_one h]
  have := tanh_nonneg' (by linarith : (0:ℝ) ≤ -x - 1)
  linarith

lemma sc_neg (x : ℝ) : soft_clip (-x) = -soft_clip x := by
  rcases lt_trichotomy x 0 with hx | hx | hx
  · by_cases h1 : x < -1
    · rw [sc_of_lt_neg_one h1, sc_of_gt_one (by linarith : 1 < -x)]
      ring
    · have hax : |x| ≤ 1 := by
        rw [abs_of_neg hx]
        linarith [not_lt.mp h1]
      have hax' : |(-x)| ≤ 1 := by rwa [abs_neg]
      unfold soft_clip
      rw [if_pos hax, if_pos hax']
  · subst hx
    simp [soft_clip]
  · by_cases h1 : 1 < x
    · rw [sc_of_gt_one h1, sc_of_lt_neg_one (by linarith : -x < -1)]
      ring_nf
    · have hax : |x| ≤ 1 := by
        rw [abs_of_pos hx]
        linarith [not_lt.mp h1]
      have hax' : |(-x)| ≤ 1 := by rwa [abs_neg]
      unfold soft_clip
      rw [if_pos hax, if_pos hax']

lemma sc_mono : Monotone soft_clip := by
  intro x y hxy
  by_cases hx : |x| ≤ 1
  · by_cases hy : |y| ≤ 1
    · unfold soft_clip
      rw [if_pos hx, if_pos hy]
      exact hxy
    · rcases lt_abs.mp (not_le.mp hy) with h1 | h1
      · have hsx : soft_clip x = x := by
          unfold soft_clip
          rw [if_pos hx]
        have hb := (abs_le.mp hx).2
        have h2 := one_le_sc_of_gt h1
        linarith
      · exfalso
        have h2 : y < -1 := by linarith
        have h3 := (abs_le.mp hx).1
        linarith
  · rcases lt_abs.mp (not_le.mp hx) with h1 | h1
    · have hy1 : 1 < y := lt_of_lt_of_le h1 hxy
      rw [sc_of_gt_one h1, sc_of_gt_one hy1]
      have := tanh_le_tanh (by linarith : x - 1 ≤ y - 1)
      linarith
    · have hx1 : x < -1 := by linarith
      by_cases hy1 : y < -1
      · rw [sc_of_lt_neg_one hx1, sc_of_lt_neg_one hy1]
        have := tanh_le_tanh (by linarith : -y - 1 ≤ -x - 1)
        linarith
      · have hscx := sc_le_neg_one_of_lt hx1
        by_cases hy : |y| ≤ 1
        · have hsy : soft_clip y = y := by
            unfold soft_clip
            rw [if_pos hy]
          have := (abs_le.mp hy).1
          linarith
        · rcases lt_abs.mp (not_le.mp hy) with h2 | h2
          · have := one_le_sc_of_gt h2
            linarith
          · exact absurd (by linarith : y < -1) hy1

lemma sc_tendsto_atTop : Filter.Tendsto soft_clip Filter.atTop (nhds (3/2)) := by
  have hev : soft_clip =ᶠ[Filter.atTop] fun x => 1 + Real.tanh (x - 1) * 0.5 := by
    filter_upwards [Filter.eventually_gt_atTop 1] with x hx
    exact sc_of_gt_one hx
  have h1 : Filter.Tendsto (fun x : ℝ => x - 1) Filter.atTop Filter.atTop :=
    Filter.tendsto_atTop_add_const_right _ (-1) Filter.tendsto_id
  have h2 : Filter.Tendsto (fun x : ℝ => 1 + Real.tanh (x - 1) * 0.5) Filter.atTop
      (nhds (1 + 1 * 0.5)) :=
    tendsto_const_nhds.add ((tendsto_tanh_one.comp h1).mul_const 0.5)
  have h3 : (1 : ℝ) + 1 * 0.5 = 3/2 := by norm_num
  rw [h3] at h2
  exact h2.congr' hev.symm

lemma sc_tendsto_atBot : Filter.Tendsto soft_clip Filter.atBot (nhds (-(3/2))) := by
  have h2 : Filter.Tendsto (fun x : ℝ => soft_clip (-x)) Filter.atBot (nhds (3/2)) :=
    sc_tendsto_atTop.comp Filter.tendsto_neg_atBot_atTop
  exact h2.neg.congr (fun x => by rw [sc_neg]; ring)

/-- C7: soft_clip is the identity on [-1, 1] and equals
signum(x) * (1 + tanh(|x| - 1) * 0.5) outside it; it is monotone
non-decreasing, odd-symmetric, and tends to 3/2 at +infinity and to -3/2
at -infinity (approaching sign(x) * 1.5 for large |x|). -/
theorem soft_clip_spec :
    (∀ x : ℝ, |x| ≤ 1 → soft_clip x = x) ∧
    (∀ x : ℝ, 1 < |x| → soft_clip x = signum x * (1 + Real.tanh (|x| - 1) * 0.5)) ∧
    Monotone soft_clip ∧
    (∀ x : ℝ, soft_clip (-x) = -soft_clip x) ∧
    Filter.Tendsto soft_clip Filter.atTop (nhds (3/2)) ∧
    Filter.Tendsto soft_clip Filter.atBot (nhds (-(3/2))) := by
  refine ⟨?_, ?_, sc_mono, sc_neg, sc_tendsto_atTop, sc_tendsto_atBot⟩
  · intro x h
    unfold soft_clip
    rw [if_pos h]
  · intro x h
    unfold soft_clip
    rw [if_neg (not_le.mpr h)]

/-- Witness for the C7 theorem at x = 1/2. -/
theorem soft_clip_spec_witness :
    soft_clip (1/2) = 1/2 ∧ soft_clip (-(1/2)) = -soft_clip (1/2) :=
  ⟨soft_clip_spec.1 (1/2) (by norm_num [abs_le]),
   soft_clip_spec.2.2.2.1 (1/2)⟩

end Corroza
